import Mathlib

/-!
# Verification of the aperture-photometry / local-background workflow

This file gives a shallow embedding of the aperture-photometry and
local-background-subtraction engine demonstrated by the notebooks of this
repository, together with proofs of the specified properties.

The notebooks drive external library routines (`photutils`, `astropy.stats`);
the concrete arithmetic performed by notebook cells (the background
compositor columns, the `bkg_median` loop) is embedded directly from the
notebook source, while the library operations themselves
(`sigma_clipped_stats`, `ApertureMask`, `aperture_photometry`) are modelled
from the specification, as noted in each doc comment.

Real-valued image data is modelled over `ℚ` (exact arithmetic) except for the
geometric overlap weights, where the image plane is modelled as `ℂ ≃ ℝ²` with
Lebesgue measure.  The sigma-clip rejection test `|x - median| ≤ σ·std` is
embedded in the equivalent squared form `(x - median)² ≤ σ²·var`, which is
exact over `ℚ` (both sides of the original test are nonnegative, so squaring
is an equivalence).
-/

open scoped BigOperators

/-! ## BackgroundEstimator: sigma-clipped statistics

Modelled from the spec: `sigma_clipped_stats(data, sigma=3.0, maxiters=5)`
iteratively computes the median and standard deviation of the sample,
discards samples more than `sigma` standard deviations from the median, and
repeats until no further samples are discarded or `maxiters` is reached.
The library routine (`astropy.stats.sigma_clipped_stats`) is not part of this
repository's sources; only its call sites are.
-/

/-- Arithmetic mean of a sample (`0` on the empty sample, which the public
entry point rejects). -/
def mean (xs : List ℚ) : ℚ := xs.sum / xs.length

/-- Ascending sort of a sample. -/
def sortQ (xs : List ℚ) : List ℚ := List.insertionSort (· ≤ ·) xs

/-- Median of a sample: middle element of the sorted sample, or the average
of the two middle elements for even length (as `np.median`). -/
def median (xs : List ℚ) : ℚ :=
  let s := sortQ xs
  if xs.length % 2 = 1 then s.getD (xs.length / 2) 0
  else (s.getD (xs.length / 2 - 1) 0 + s.getD (xs.length / 2) 0) / 2

/-- Population variance of a sample (square of the standard deviation). -/
def svar (xs : List ℚ) : ℚ :=
  (xs.map (fun x => (x - mean xs) ^ 2)).sum / xs.length

/-- One sigma-clipping pass: keep the samples within `sigma` standard
deviations of the median, written in the exact squared form. -/
def clipStep (sigma : ℚ) (xs : List ℚ) : List ℚ :=
  xs.filter (fun x => decide ((x - median xs) ^ 2 ≤ sigma ^ 2 * svar xs))

/-- Iterate `clipStep` until no sample is discarded or the iteration cap is
reached. -/
def sigmaClipLoop (sigma : ℚ) : ℕ → List ℚ → List ℚ
  | 0, xs => xs
  | n + 1, xs =>
    let ys := clipStep sigma xs
    if ys.length = xs.length then xs else sigmaClipLoop sigma n ys

/-- Modelled from the spec: `sigma_clipped_stats` returns the
(mean, median, variance) of the clipped sample; the empty sample is the one
input that fails explicitly (returns `none`).  The variance stands in for the
standard deviation (`std = √var`), keeping the result in `ℚ`. -/
def sigma_clipped_stats (xs : List ℚ) (sigma : ℚ) (maxiters : ℕ) :
    Option (ℚ × ℚ × ℚ) :=
  if xs.isEmpty then none
  else
    let c := sigmaClipLoop sigma maxiters xs
    some (mean c, median c, svar c)

/-! ### Basic facts about the estimator on degenerate samples -/

theorem getD_replicate {n i : ℕ} (v d : ℚ) (h : i < n) :
    (List.replicate n v).getD i d = v := by
  induction n generalizing i with
  | zero => omega
  | succ m ih =>
    cases i with
    | zero => rfl
    | succ k =>
      have hk : k < m := by omega
      simpa [List.replicate_succ, List.getD] using
        (by simpa [List.getD] using ih (i := k) hk)

theorem mean_replicate {n : ℕ} (hn : n ≠ 0) (v : ℚ) :
    mean (List.replicate n v) = v := by
  have hlen : (List.replicate n v).length = n := List.length_replicate ..
  have hsum : (List.replicate n v).sum = (n : ℚ) * v := by
    simp [List.sum_replicate, nsmul_eq_mul]
  have hn' : (n : ℚ) ≠ 0 := Nat.cast_ne_zero.mpr hn
  rw [mean, hsum, hlen]
  field_simp

theorem sortQ_replicate (n : ℕ) (v : ℚ) :
    sortQ (List.replicate n v) = List.replicate n v := by
  have hperm : List.Perm (sortQ (List.replicate n v)) (List.replicate n v) :=
    List.perm_insertionSort (· ≤ ·) (List.replicate n v)
  refine List.eq_replicate_iff.mpr ⟨?_, ?_⟩
  · simpa using hperm.length_eq
  · intro b hb
    exact List.eq_of_mem_replicate (hperm.mem_iff.mp hb)

theorem median_replicate {n : ℕ} (hn : n ≠ 0) (v : ℚ) :
    median (List.replicate n v) = v := by
  rw [median, sortQ_replicate]
  have hlen : (List.replicate n v).length = n := List.length_replicate ..
  rw [hlen]
  by_cases hpar : n % 2 = 1
  · rw [if_pos hpar, getD_replicate v 0 (by omega)]
  · rw [if_neg hpar, getD_replicate v 0 (by omega), getD_replicate v 0 (by omega)]
    ring

theorem svar_replicate {n : ℕ} (hn : n ≠ 0) (v : ℚ) :
    svar (List.replicate n v) = 0 := by
  rw [svar, mean_replicate hn]
  have : (List.replicate n v).map (fun x => (x - v) ^ 2) = List.replicate n 0 := by
    rw [List.map_replicate]
    simp
  rw [this]
  simp [List.sum_replicate]

theorem clipStep_replicate {n : ℕ} (hn : n ≠ 0) (sigma v : ℚ) :
    clipStep sigma (List.replicate n v) = List.replicate n v := by
  rw [clipStep]
  refine List.filter_eq_self.mpr ?_
  intro a ha
  have hav : a = v := List.eq_of_mem_replicate ha
  rw [median_replicate hn, svar_replicate hn, hav]
  simp

theorem sigmaClipLoop_replicate {n : ℕ} (hn : n ≠ 0) (sigma v : ℚ) (fuel : ℕ) :
    sigmaClipLoop sigma fuel (List.replicate n v) = List.replicate n v := by
  cases fuel with
  | zero => rfl
  | succ k =>
    rw [sigmaClipLoop, clipStep_replicate hn]
    simp

theorem clipStep_sublist (sigma : ℚ) (xs : List ℚ) :
    (clipStep sigma xs).Sublist xs := List.filter_sublist xs

/-- The loop reaches a fixpoint of `clipStep` whenever the fuel budget is at
least the sample size: each productive pass strictly shrinks the sample. -/
theorem sigmaClipLoop_fix (sigma : ℚ) :
    ∀ (n : ℕ) (xs : List ℚ), xs.length ≤ n →
      clipStep sigma (sigmaClipLoop sigma n xs) = sigmaClipLoop sigma n xs := by
  intro n
  induction n with
  | zero =>
    intro xs hxs
    have : xs = [] := List.length_eq_zero.mp (Nat.le_zero.mp hxs)
    subst this
    rfl
  | succ k ih =>
    intro xs hxs
    rw [sigmaClipLoop]
    by_cases hlen : (clipStep sigma xs).length = xs.length
    · have hfix : clipStep sigma xs = xs :=
        (clipStep_sublist sigma xs).eq_of_length hlen
      simp [hlen, hfix]
    · have hlt : (clipStep sigma xs).length < xs.length :=
        Nat.lt_of_le_of_ne ((clipStep_sublist sigma xs).length_le) hlen

      simp only [hlen, if_false]
      exact ih _ (by omega)

/-- **C3.** `sigma_clipped_stats` iterates median/std clipping until no sample
is discarded or the iteration cap is reached; it converges on all-identical
input (nothing is discarded, the very first pass is a fixpoint), returns the
single value trivially on a sample of size 1, fails explicitly (`none`) only
on empty input, and whenever the iteration cap is at least the sample size
the loop output is an exact fixpoint of the clipping step. -/
theorem sigma_clipped_stats_degenerate (sigma v x : ℚ) (m fuel : ℕ)
    (xs : List ℚ) (hfuel : xs.length ≤ fuel) :
    sigma_clipped_stats (List.replicate (m + 1) v) sigma fuel = some (v, v, 0)
    ∧ sigma_clipped_stats [x] sigma fuel = some (x, x, 0)
    ∧ sigma_clipped_stats [] sigma fuel = none
    ∧ clipStep sigma (sigmaClipLoop sigma fuel xs) = sigmaClipLoop sigma fuel xs := by
  have hrep : ∀ (k : ℕ) (w : ℚ), k ≠ 0 →
      sigma_clipped_stats (List.replicate k w) sigma fuel = some (w, w, 0) := by
    intro k w hk
    rw [sigma_clipped_stats]
    have hne : (List.replicate k w).isEmpty = false := by
      cases k with
      | zero => omega
      | succ i => rfl
    rw [hne]
    simp only [Bool.false_eq_true, if_false, sigmaClipLoop_replicate hk,
      mean_replicate hk, median_replicate hk, svar_replicate hk]
  refine ⟨hrep (m + 1) v (by omega), ?_, rfl, sigmaClipLoop_fix sigma fuel xs hfuel⟩
  simpa using hrep 1 x (by omega)

/-- Witness for `sigma_clipped_stats_degenerate` at concrete inputs. -/
theorem sigma_clipped_stats_degenerate_witness :
    List.length [(3 : ℚ), 100, 100] ≤ 5
    ∧ (sigma_clipped_stats (List.replicate 2 (7 : ℚ)) 3 5 = some (7, 7, 0)
      ∧ sigma_clipped_stats [(4 : ℚ)] 3 5 = some (4, 4, 0)
      ∧ sigma_clipped_stats [] 3 5 = none
      ∧ clipStep 3 (sigmaClipLoop 3 5 [(3 : ℚ), 100, 100])
          = sigmaClipLoop 3 5 [(3 : ℚ), 100, 100]) :=
  ⟨by decide, sigma_clipped_stats_degenerate 3 7 4 1 5 [3, 100, 100] (by decide)⟩

/-! ## Compositor: background-subtracted flux

These definitions are embedded directly from the notebook cells that build
the photometry table columns. -/

/-- Embedded from the notebook:
`phot['annulus_mean'] = phot['annulus_sum'] / bkg_aper.area`. -/
def annulus_mean (annulusSum : List ℚ) (bkg_aper_area : ℚ) : List ℚ :=
  annulusSum.map (fun s => s / bkg_aper_area)

/-- Embedded from the notebook:
`phot['aperture_bkg'] = phot['annulus_mean'] * aper.area`. -/
def aperture_bkg (annulusMean : List ℚ) (aper_area : ℚ) : List ℚ :=
  annulusMean.map (fun b => b * aper_area)

/-- Embedded from the notebook:
`flux_bkgsub = phot['aperture_sum'] - phot['aperture_bkg']`. -/
def flux_bkgsub (apertureSum apertureBkg : List ℚ) : List ℚ :=
  List.zipWith (fun s b => s - b) apertureSum apertureBkg

/-- Embedded from the notebook: `bkg_total = aper.area * median_sigclip`
(total background in the source aperture from a robust per-pixel estimate). -/
def bkg_total (aper_area median_sigclip : ℚ) : ℚ := aper_area * median_sigclip

/-- The spec's Compositor contract:
`background_subtracted_flux(source_sum, source_area, bkg_per_pixel_estimate)
 = source_sum − bkg_per_pixel_estimate × source_area`. -/
def background_subtracted_flux (source_sum source_area bkg_per_pixel_estimate : ℚ) : ℚ :=
  source_sum - bkg_per_pixel_estimate * source_area

/-- **C1.** The notebook's background-subtraction pipeline realizes the
Compositor contract: each background-subtracted flux equals
`source_sum − b × source_area` where the per-pixel estimate `b` is the
annulus sum divided by the *annulus* area and is scaled by the *source*
aperture's area; the same holds on the robust-statistic path through
`bkg_total`. -/
theorem flux_bkgsub_spec (apertureSum annulusSum : List ℚ)
    (aper_area bkg_aper_area med s0 : ℚ) :
    flux_bkgsub apertureSum
        (aperture_bkg (annulus_mean annulusSum bkg_aper_area) aper_area)
      = List.zipWith
          (fun s asum => background_subtracted_flux s aper_area (asum / bkg_aper_area))
          apertureSum annulusSum
    ∧ s0 - bkg_total aper_area med = background_subtracted_flux s0 aper_area med := by
  constructor
  · simp [flux_bkgsub, aperture_bkg, annulus_mean, background_subtracted_flux,
      List.map_map, List.zipWith_map_right]
  · simp [bkg_total, background_subtracted_flux, mul_comm]

/-! ## ApertureMask pixel extraction

Modelled from the spec: a rasterized mask is represented by the list of its
bounding-box pixels, each carrying its parent-image position and its overlap
weight.  `photutils.aperture.ApertureMask` is an external library class; only
its call sites appear in this repository. -/

/-- Modelled from the spec: `multiply(image)` — elementwise product of the
weight array and the image cutout (flattened). -/
def multiply (m : List ((ℤ × ℤ) × ℚ)) (img : ℤ × ℤ → ℚ) : List ℚ :=
  m.map (fun pw => pw.2 * img pw.1)

/-- Modelled from the spec: `get_values(image)` flattens `multiply(image)`
and returns only the pixels with weight > 0, as a 1D sequence. -/
def get_values (m : List ((ℤ × ℤ) × ℚ)) (img : ℤ × ℤ → ℚ) : List ℚ :=
  ((m.map (fun pw => pw.2)).zip (multiply m img)).filterMap
    (fun wv => if 0 < wv.1 then some wv.2 else none)

theorem get_values_eq_filter (m : List ((ℤ × ℤ) × ℚ)) (img : ℤ × ℤ → ℚ) :
    get_values m img
      = (m.filter (fun pw => decide (0 < pw.2))).map (fun pw => pw.2 * img pw.1) := by
  induction m with
  | nil => rfl
  | cons pw t ih =>
    simp only [get_values, multiply, List.map_cons, List.zip_cons_cons,
      List.filterMap_cons, List.filter_cons] at ih ⊢
    by_cases h : 0 < pw.2
    · simp [h, ih]
    · simp [h, ih]

theorem get_values_binary (m : List ((ℤ × ℤ) × ℚ)) (img : ℤ × ℤ → ℚ)
    (hbin : ∀ pw ∈ m, pw.2 = 0 ∨ pw.2 = 1) :
    get_values m img
      = (m.filter (fun pw => decide (0 < pw.2))).map (fun pw => img pw.1) := by
  rw [get_values_eq_filter]
  apply List.map_congr_left
  intro pw hpw
  have hm : pw ∈ m := List.mem_of_mem_filter hpw
  have hpos : 0 < pw.2 := by simpa using (List.mem_filter.mp hpw).2
  rcases hbin pw hm with h0 | h1
  · rw [h0] at hpos
    exact absurd hpos (lt_irrefl 0)
  · rw [h1, one_mul]

/-- **C5.** `get_values(image)` returns exactly the entries of
`multiply(image)` at pixels of strictly positive weight, flattened; for a
binary ("center"-method) mask it returns the raw, unweighted pixel values
inside the aperture. -/
theorem get_values_weighted_spec (m : List ((ℤ × ℤ) × ℚ)) (img : ℤ × ℤ → ℚ) :
    get_values m img
      = (m.filter (fun pw => decide (0 < pw.2))).map (fun pw => pw.2 * img pw.1)
    ∧ ((∀ pw ∈ m, pw.2 = 0 ∨ pw.2 = 1) →
      get_values m img
        = (m.filter (fun pw => decide (0 < pw.2))).map (fun pw => img pw.1)) :=
  ⟨get_values_eq_filter m img, fun hbin => get_values_binary m img hbin⟩

/-- Witness for `get_values_weighted_spec` at a concrete binary mask. -/
theorem get_values_weighted_spec_witness :
    (∀ pw ∈ [(((0 : ℤ), (0 : ℤ)), (1 : ℚ)), (((0 : ℤ), (1 : ℤ)), (0 : ℚ))],
        pw.2 = 0 ∨ pw.2 = 1)
    ∧ get_values [(((0 : ℤ), (0 : ℤ)), (1 : ℚ)), (((0 : ℤ), (1 : ℤ)), (0 : ℚ))]
          (fun _ => 5)
        = (([(((0 : ℤ), (0 : ℤ)), (1 : ℚ)), (((0 : ℤ), (1 : ℤ)), (0 : ℚ))].filter
              (fun pw => decide (0 < pw.2))).map (fun pw => (fun _ => (5 : ℚ)) pw.1)) :=
  ⟨by decide, (get_values_weighted_spec _ _).2 (by decide)⟩

/-! ## The combined multi-position background loop (embedded from the source)

The notebook's "Putting it all together" cell reads:

    bkg_median = []
    bkg_mask = bkg_aper.to_mask(method='center')
    for mask in bkg_mask:
        aper_data = bmask.get_values(data)
        _, median_sigclip, _ = sigma_clipped_stats(aper_data)
        bkg_median.append(median_sigclip)

The loop body extracts pixel values through `bmask` (the first position's
annulus mask, bound in an earlier cell) instead of the loop variable `mask`;
the embedding below reproduces that body verbatim. -/

/-- Embedded from the notebook loop above: the loop variable is ignored and
every iteration reads the fixed first-position mask `bmask`. -/
def bkg_median (bkg_mask : List (List ((ℤ × ℤ) × ℚ))) (data : ℤ × ℤ → ℚ) : List ℚ :=
  let bmask := bkg_mask.headD []
  bkg_mask.map (fun _mask =>
    ((sigma_clipped_stats (get_values bmask data) 3 5).map (fun t => t.2.1)).getD 0)

/-- Embedded from the notebook: `phot['aperture_bkg2'] = bkg_median * aper.area`. -/
def aperture_bkg2 (bkgMedian : List ℚ) (aper_area : ℚ) : List ℚ :=
  bkgMedian.map (fun b => b * aper_area)

/-- Embedded from the notebook:
`phot['aperture_sum_bkgsub2'] = phot['aperture_sum'] - phot['aperture_bkg2']`. -/
def aperture_sum_bkgsub2 (apertureSum apertureBkg2 : List ℚ) : List ℚ :=
  List.zipWith (fun s b => s - b) apertureSum apertureBkg2

theorem zipWith_replicate_right {α β γ δ : Type} (f : α → β → γ) (c : β) :
    ∀ (S : List α) (L : List δ),
      List.zipWith f S (List.replicate L.length c)
        = List.zipWith (fun s _ => f s c) S L := by
  intro S L
  induction L generalizing S with
  | nil => simp
  | cons d t ih =>
    cases S with
    | nil => simp
    | cons s st => simp [List.replicate_succ, ih]

/-- **C2.** Because the loop body reads the fixed first-position mask
`bmask`, all entries of `bkg_median` are equal — each is the sigma-clipped
median of the first annulus's pixel values — and the background subtracted
for every source is that first-annulus per-pixel estimate times the source
aperture area. -/
theorem bkg_median_constant (bkg_mask : List (List ((ℤ × ℤ) × ℚ)))
    (data : ℤ × ℤ → ℚ) (apertureSum : List ℚ) (aper_area : ℚ) :
    bkg_median bkg_mask data
      = List.replicate bkg_mask.length
          (((sigma_clipped_stats (get_values (bkg_mask.headD []) data) 3 5).map
              (fun t => t.2.1)).getD 0)
    ∧ aperture_sum_bkgsub2 apertureSum
          (aperture_bkg2 (bkg_median bkg_mask data) aper_area)
      = List.zipWith
          (fun s _mask => s -
            (((sigma_clipped_stats (get_values (bkg_mask.headD []) data) 3 5).map
                (fun t => t.2.1)).getD 0) * aper_area)
          apertureSum bkg_mask := by
  constructor
  · simp [bkg_median]
  · simp only [aperture_sum_bkgsub2, aperture_bkg2, bkg_median, List.map_map,
      List.map_const']
    rw [List.map_replicate]
    exact zipWith_replicate_right _ _ apertureSum bkg_mask

/-! ## PhotometryEngine: aperture_photometry

Modelled from the spec: `aperture_photometry(image, apertures, error=None,
mask=None)` sums weighted pixel values over a rasterized mask; if an error
array is supplied the propagated uncertainty is `sqrt(Σ weightᵢ²·errorᵢ²)`;
bad pixels from a boolean mask are excluded (weight treated as 0); an
aperture entirely outside the image yields a zero-overlap result (sum 0,
area 0) with a caller-visible flag, not a raised failure.  The library
routine (`photutils.aperture.aperture_photometry`) is not part of this
repository's sources; only its call sites are. -/

/-- Whether a parent-image position lies inside an image of the given
(rows, cols) shape. -/
def inBounds (shape : ℕ × ℕ) (p : ℤ × ℤ) : Bool :=
  decide (0 ≤ p.1) && decide (p.1 < (shape.1 : ℤ)) &&
    decide (0 ≤ p.2) && decide (p.2 < (shape.2 : ℤ))

/-- Effective weight of a mask pixel: the rasterized weight with image
bounds and bad-pixel masking applied (treated as 0 there). -/
def pixWeight (shape : ℕ × ℕ) (bad : ℤ × ℤ → Bool) (pw : (ℤ × ℤ) × ℚ) : ℚ :=
  if inBounds shape pw.1 && !bad pw.1 then pw.2 else 0

/-- Modelled from the spec: `aperture_sum` — the sum of effective-weighted
pixel values of one aperture mask. -/
def aperture_sum (m : List ((ℤ × ℤ) × ℚ)) (img : ℤ × ℤ → ℚ)
    (shape : ℕ × ℕ) (bad : ℤ × ℤ → Bool) : ℚ :=
  (m.map (fun pw => pixWeight shape bad pw * img pw.1)).sum

/-- Aperture area as reported per `PhotometryResult`: the sum of effective
mask weights. -/
def aperture_area (m : List ((ℤ × ℤ) × ℚ)) (shape : ℕ × ℕ)
    (bad : ℤ × ℤ → Bool) : ℚ :=
  (m.map (fun pw => pixWeight shape bad pw)).sum

/-- Modelled from the spec: the variance of the aperture sum,
`Σ weightᵢ² · errorᵢ²` (independent per-pixel errors). -/
def aperture_var (m : List ((ℤ × ℤ) × ℚ)) (err : ℤ × ℤ → ℚ)
    (shape : ℕ × ℕ) (bad : ℤ × ℤ → Bool) : ℚ :=
  (m.map (fun pw => pixWeight shape bad pw ^ 2 * err pw.1 ^ 2)).sum

/-- Modelled from the spec: `aperture_sum_err = sqrt(Σ weightᵢ²·errorᵢ²)`. -/
noncomputable def aperture_sum_err (m : List ((ℤ × ℤ) × ℚ)) (err : ℤ × ℤ → ℚ)
    (shape : ℕ × ℕ) (bad : ℤ × ℤ → Bool) : ℝ :=
  Real.sqrt ((aperture_var m err shape bad : ℚ) : ℝ)

/-- Modelled from the spec: caller-visible flag for an aperture with empty
overlap with the image bounds. -/
def no_overlap (m : List ((ℤ × ℤ) × ℚ)) (shape : ℕ × ℕ) : Bool :=
  m.all (fun pw => !inBounds shape pw.1)

theorem aperture_var_nonneg (m : List ((ℤ × ℤ) × ℚ)) (err : ℤ × ℤ → ℚ)
    (shape : ℕ × ℕ) (bad : ℤ × ℤ → Bool) : 0 ≤ aperture_var m err shape bad := by
  apply List.sum_nonneg
  intro x hx
  obtain ⟨pw, _, rfl⟩ := List.mem_map.mp hx
  positivity

/-- **C8.** The propagated uncertainty is the (nonnegative) square root of
`Σ (weightᵢ² · errorᵢ²)` over the mask's pixels: it is characterized by
being nonnegative with square equal to that sum. -/
theorem aperture_sum_err_spec (m : List ((ℤ × ℤ) × ℚ)) (err : ℤ × ℤ → ℚ)
    (shape : ℕ × ℕ) (bad : ℤ × ℤ → Bool) :
    0 ≤ aperture_sum_err m err shape bad
    ∧ aperture_sum_err m err shape bad ^ 2
        = (((m.map (fun pw => pixWeight shape bad pw ^ 2 * err pw.1 ^ 2)).sum : ℚ) : ℝ) := by
  constructor
  · exact Real.sqrt_nonneg _
  · rw [aperture_sum_err, Real.sq_sqrt]
    · rfl
    · exact_mod_cast aperture_var_nonneg m err shape bad

/-- **C9.** A pixel flagged in the bad-pixel mask contributes nothing to the
aperture sum (its effective weight is 0); hence two images that differ only
at masked pixels yield identical aperture sums. -/
theorem masked_pixels_excluded (m : List ((ℤ × ℤ) × ℚ)) (d1 d2 : ℤ × ℤ → ℚ)
    (shape : ℕ × ℕ) (bad : ℤ × ℤ → Bool)
    (hb : ∀ p, bad p = false → d1 p = d2 p) :
    (∀ pw ∈ m, bad pw.1 = true → pixWeight shape bad pw * d1 pw.1 = 0)
    ∧ aperture_sum m d1 shape bad = aperture_sum m d2 shape bad := by
  constructor
  · intro pw _ hbad
    simp [pixWeight, hbad]
  · unfold aperture_sum
    congr 1
    apply List.map_congr_left
    intro pw _
    by_cases hbad : bad pw.1 = true
    · simp [pixWeight, hbad]
    · rw [hb pw.1 (by simpa using hbad)]

/-- Witness for `masked_pixels_excluded`: two images differing exactly at
one masked pixel. -/
theorem masked_pixels_excluded_witness :
    (∀ p : ℤ × ℤ, (fun q => decide (q = ((1 : ℤ), (0 : ℤ)))) p = false →
        (fun q => if q = ((1 : ℤ), (0 : ℤ)) then (100 : ℚ) else 5) p
          = (fun _ => (5 : ℚ)) p)
    ∧ ((∀ pw ∈ [(((0 : ℤ), (0 : ℤ)), (1 : ℚ)), (((1 : ℤ), (0 : ℤ)), (1 : ℚ))],
          (fun q => decide (q = ((1 : ℤ), (0 : ℤ)))) pw.1 = true →
          pixWeight (2, 2) (fun q => decide (q = ((1 : ℤ), (0 : ℤ)))) pw *
            (fun q => if q = ((1 : ℤ), (0 : ℤ)) then (100 : ℚ) else 5) pw.1 = 0)
      ∧ aperture_sum [(((0 : ℤ), (0 : ℤ)), (1 : ℚ)), (((1 : ℤ), (0 : ℤ)), (1 : ℚ))]
            (fun q => if q = ((1 : ℤ), (0 : ℤ)) then (100 : ℚ) else 5) (2, 2)
            (fun q => decide (q = ((1 : ℤ), (0 : ℤ))))
          = aperture_sum [(((0 : ℤ), (0 : ℤ)), (1 : ℚ)), (((1 : ℤ), (0 : ℤ)), (1 : ℚ))]
            (fun _ => (5 : ℚ)) (2, 2)
            (fun q => decide (q = ((1 : ℤ), (0 : ℤ))))) := by
  have hb : ∀ p : ℤ × ℤ, (fun q => decide (q = ((1 : ℤ), (0 : ℤ)))) p = false →
      (fun q => if q = ((1 : ℤ), (0 : ℤ)) then (100 : ℚ) else 5) p
        = (fun _ => (5 : ℚ)) p := by
    intro p hp
    simp only [decide_eq_false_iff_not] at hp
    simp [hp]
  exact ⟨hb, masked_pixels_excluded _ _ _ _ _ hb⟩

/-- **C10.** An aperture whose mask lies entirely outside the image bounds
yields a zero-overlap result — sum 0, area 0 — together with the
caller-visible `no_overlap` flag; the engine is a total function, so no
failure is raised. -/
theorem out_of_bounds_aperture (m : List ((ℤ × ℤ) × ℚ)) (img : ℤ × ℤ → ℚ)
    (shape : ℕ × ℕ) (bad : ℤ × ℤ → Bool)
    (h : m.all (fun pw => !inBounds shape pw.1) = true) :
    aperture_sum m img shape bad = 0
    ∧ aperture_area m shape bad = 0
    ∧ no_overlap m shape = true := by
  have hz : ∀ pw ∈ m, pixWeight shape bad pw = 0 := by
    intro pw hpw
    have hob := List.all_eq_true.mp h pw hpw
    simp only [Bool.not_eq_eq_eq_not, Bool.not_true] at hob
    simp [pixWeight, hob]
  refine ⟨?_, ?_, h⟩
  · apply List.sum_eq_zero
    intro x hx
    obtain ⟨pw, hpw, rfl⟩ := List.mem_map.mp hx
    rw [hz pw hpw, zero_mul]
  · apply List.sum_eq_zero
    intro x hx
    obtain ⟨pw, hpw, rfl⟩ := List.mem_map.mp hx
    exact hz pw hpw

/-- Witness for `out_of_bounds_aperture`: a mask fully outside a 3×3 image. -/
theorem out_of_bounds_aperture_witness :
    ([(((-5 : ℤ), (-5 : ℤ)), (1 : ℚ))].all (fun pw => !inBounds (3, 3) pw.1) = true)
    ∧ (aperture_sum [(((-5 : ℤ), (-5 : ℤ)), (1 : ℚ))] (fun _ => 2) (3, 3)
          (fun _ => false) = 0
      ∧ aperture_area [(((-5 : ℤ), (-5 : ℤ)), (1 : ℚ))] (3, 3) (fun _ => false) = 0
      ∧ no_overlap [(((-5 : ℤ), (-5 : ℤ)), (1 : ℚ))] (3, 3) = true) :=
  ⟨by decide, out_of_bounds_aperture _ _ _ _ (by decide)⟩

/-! ## ApertureMask placement: to_image -/

/-- Modelled from the spec: the 2D weight array of an `ApertureMask`
together with its bounding-box offset (integer pixel offset, clipped to
non-negative coordinates) locating it within a parent image. -/
structure Mask2 where
  weights : List (List ℚ)
  offset : ℕ × ℕ

/-- The bounding-box shape of a mask: (number of rows, row width). -/
def bbox_shape (m : Mask2) : ℕ × ℕ :=
  (m.weights.length, (m.weights.headD []).length)

/-- Weight lookup inside the bounding box (0 outside the stored array). -/
def weightAt (m : Mask2) (r c : ℕ) : ℚ := (m.weights.getD r []).getD c 0

/-- Modelled from the spec: `to_image(shape)` places the weight array into a
zero-filled array of the given shape at the mask's bounding-box offset;
pixels outside the target shape are dropped silently (no error). -/
def to_image (m : Mask2) (shape : ℕ × ℕ) : ℕ → ℕ → ℚ :=
  fun r c =>
    if r < shape.1 ∧ c < shape.2 ∧ m.offset.1 ≤ r ∧ m.offset.2 ≤ c then
      weightAt m (r - m.offset.1) (c - m.offset.2)
    else 0

/-- Sum of all entries of a `shape`-sized image. -/
def image_sum (shape : ℕ × ℕ) (img : ℕ → ℕ → ℚ) : ℚ :=
  ∑ r ∈ Finset.range shape.1, ∑ c ∈ Finset.range shape.2, img r c

/-- Total weight of a mask. -/
def weights_sum (m : Mask2) : ℚ := (m.weights.map List.sum).sum

theorem sum_range_getD (l : List ℚ) :
    ∀ (W : ℕ), l.length ≤ W →
      ∑ c ∈ Finset.range W, l.getD c 0 = l.sum := by
  induction l with
  | nil =>
    intro W _
    simp [List.getD]
  | cons a t ih =>
    intro W hW
    obtain ⟨V, rfl⟩ : ∃ V, W = V + 1 := ⟨W - 1, by simp at hW; omega⟩
    rw [Finset.sum_range_succ']
    simp only [List.getD_cons_succ, List.getD_cons_zero]
    rw [ih V (by simp at hW; omega), List.sum_cons, add_comm]

theorem sum_range_getD_offset (l : List ℚ) :
    ∀ (off W : ℕ), off + l.length ≤ W →
      ∑ c ∈ Finset.range W, (if off ≤ c then l.getD (c - off) 0 else 0) = l.sum := by
  intro off
  induction off with
  | zero =>
    intro W hW
    simp only [Nat.zero_le, if_true, Nat.sub_zero]
    exact sum_range_getD l W (by omega)
  | succ k ih =>
    intro W hW
    obtain ⟨V, rfl⟩ : ∃ V, W = V + 1 := ⟨W - 1, by omega⟩
    rw [Finset.sum_range_succ']
    have h0 : (if k + 1 ≤ 0 then l.getD (0 - (k + 1)) 0 else 0) = 0 := by
      rw [if_neg (by omega)]
    have hstep : ∀ c, (if k + 1 ≤ c + 1 then l.getD (c + 1 - (k + 1)) 0 else 0)
        = (if k ≤ c then l.getD (c - k) 0 else 0) := by
      intro c
      by_cases hkc : k ≤ c
      · rw [if_pos (by omega), if_pos hkc]
        congr 1
        omega
      · rw [if_neg (by omega), if_neg hkc]
    rw [h0, add_zero, Finset.sum_congr rfl (fun c _ => hstep c)]
    exact ih V (by omega)

theorem map_sum_getD (L : List (List ℚ)) :
    ∀ i, (L.map List.sum).getD i 0 = (L.getD i []).sum := by
  induction L with
  | nil =>
    intro i
    simp [List.getD]
  | cons hd t ih =>
    intro i
    cases i with
    | zero => rfl
    | succ k => simpa using ih k

theorem getD_length_le (L : List (List ℚ)) (W : ℕ)
    (hrect : ∀ row ∈ L, row.length ≤ W) : ∀ i, (L.getD i []).length ≤ W := by
  induction L with
  | nil =>
    intro i
    simp [List.getD]
  | cons hd t ih =>
    intro i
    cases i with
    | zero => exact hrect hd (List.mem_cons_self ..)
    | succ k => exact ih (fun row hr => hrect row (List.mem_cons_of_mem _ hr)) k

/-- **C7 counterexample.** For the mask with weight array `[[1]]` at
bounding-box offset `(1, 1)`, `to_image(bbox_shape)` places the single
weight at the offset, which falls outside the 1×1 canvas and is dropped, so
the round-trip sum is 0 while the mask's weights sum to 1. -/
theorem to_image_sum_cex :
    ¬ (image_sum (bbox_shape (Mask2.mk [[1]] (1, 1)))
          (to_image (Mask2.mk [[1]] (1, 1)) (bbox_shape (Mask2.mk [[1]] (1, 1))))
        = weights_sum (Mask2.mk [[1]] (1, 1))) := by
  norm_num [image_sum, to_image, weights_sum, bbox_shape, weightAt,
    Finset.sum_range_one]

/-- **C7 (amended).** The placement round-trip preserves the total weight
whenever the bounding box (offset plus extent) fits inside the target
shape — in particular `to_image(mask.bbox_shape)` for a mask whose
bounding-box offset is `(0, 0)`: `to_image(shape).sum() == weights.sum()`.
(A nonzero offset makes the spec's `to_image(bbox_shape)` round-trip drop
weights, see the counterexample.) -/
theorem to_image_sum_spec (m : Mask2) (shape : ℕ × ℕ)
    (hrect : ∀ row ∈ m.weights, row.length = (bbox_shape m).2)
    (h1 : m.offset.1 + (bbox_shape m).1 ≤ shape.1)
    (h2 : m.offset.2 + (bbox_shape m).2 ≤ shape.2) :
    image_sum shape (to_image m shape) = weights_sum m := by
  unfold image_sum
  have hrow : ∀ i, (m.weights.getD i []).length ≤ (bbox_shape m).2 :=
    getD_length_le m.weights _ (fun row hr => le_of_eq (hrect row hr))
  have hin : ∀ r ∈ Finset.range shape.1,
      ∑ c ∈ Finset.range shape.2, to_image m shape r c
        = (if m.offset.1 ≤ r then (m.weights.map List.sum).getD (r - m.offset.1) 0
           else 0) := by
    intro r hr
    have hrlt : r < shape.1 := Finset.mem_range.mp hr
    by_cases hro : m.offset.1 ≤ r
    · rw [if_pos hro, map_sum_getD]
      have hcell : ∀ c ∈ Finset.range shape.2, to_image m shape r c
          = (if m.offset.2 ≤ c then
              (m.weights.getD (r - m.offset.1) []).getD (c - m.offset.2) 0
             else 0) := by
        intro c hc
        have hclt : c < shape.2 := Finset.mem_range.mp hc
        unfold to_image weightAt
        by_cases hco : m.offset.2 ≤ c
        · rw [if_pos ⟨hrlt, hclt, hro, hco⟩]
          rw [if_pos hco]
        · rw [if_neg (by tauto), if_neg hco]
      rw [Finset.sum_congr rfl hcell]
      exact sum_range_getD_offset _ _ _ (by have := hrow (r - m.offset.1); omega)
    · rw [if_neg hro]
      apply Finset.sum_eq_zero
      intro c _
      unfold to_image
      rw [if_neg (by tauto)]
  rw [Finset.sum_congr rfl hin]
  have hlen : (m.weights.map List.sum).length = (bbox_shape m).1 := by
    simp [bbox_shape]
  exact sum_range_getD_offset (m.weights.map List.sum) m.offset.1 shape.1
    (by omega)

/-- Witness for `to_image_sum_spec`: a 2×2 mask placed at offset `(1, 0)`
inside a 3×2 canvas. -/
theorem to_image_sum_spec_witness :
    ((∀ row ∈ (Mask2.mk [[1, 2], [3, 4]] (1, 0)).weights,
        row.length = (bbox_shape (Mask2.mk [[1, 2], [3, 4]] (1, 0))).2)
      ∧ (Mask2.mk [[1, 2], [3, 4]] (1, 0)).offset.1
          + (bbox_shape (Mask2.mk [[1, 2], [3, 4]] (1, 0))).1 ≤ 3
      ∧ (Mask2.mk [[1, 2], [3, 4]] (1, 0)).offset.2
          + (bbox_shape (Mask2.mk [[1, 2], [3, 4]] (1, 0))).2 ≤ 2)
    ∧ image_sum (3, 2) (to_image (Mask2.mk [[1, 2], [3, 4]] (1, 0)) (3, 2))
        = weights_sum (Mask2.mk [[1, 2], [3, 4]] (1, 0)) :=
  ⟨⟨by decide, by decide, by decide⟩,
    to_image_sum_spec _ (3, 2) (by decide) (by decide) (by decide)⟩

/-! ## ApertureGeometry and rasterized overlap weights

Modelled from the spec: an aperture is a circle or circular annulus in
image-pixel coordinates; the "center" overlap method assigns weight 1 to a
pixel iff its center lies in the geometry, while the "exact" method assigns
the fractional geometric overlap area of the aperture with the (unit-area)
pixel cell.  The image plane is modelled as `ℂ ≃ ℝ²` with Lebesgue measure;
`photutils` aperture classes are external to this repository. -/

open MeasureTheory
open scoped ENNReal

/-- Aperture variants over image-pixel coordinates,
as `CircularAperture(positions, r)` / `CircularAnnulus(positions, r_in, r_out)`. -/
inductive Aperture where
  | circular (xc yc r : ℚ)
  | annulus (xc yc r_in r_out : ℚ)

/-- Pixel-center containment test driving the "center" overlap method. -/
def aperContains (a : Aperture) (x y : ℚ) : Bool :=
  match a with
  | .circular xc yc r => decide ((x - xc) ^ 2 + (y - yc) ^ 2 ≤ r ^ 2)
  | .annulus xc yc ri ro =>
      decide (ri ^ 2 ≤ (x - xc) ^ 2 + (y - yc) ^ 2) &&
        decide ((x - xc) ^ 2 + (y - yc) ^ 2 ≤ ro ^ 2)

/-- The aperture's region of the image plane. -/
def aperSet (a : Aperture) : Set ℂ :=
  match a with
  | .circular xc yc r =>
      {z | (z.re - (xc : ℝ)) ^ 2 + (z.im - (yc : ℝ)) ^ 2 ≤ (r : ℝ) ^ 2}
  | .annulus xc yc ri ro =>
      {z | (ri : ℝ) ^ 2 ≤ (z.re - (xc : ℝ)) ^ 2 + (z.im - (yc : ℝ)) ^ 2
        ∧ (z.re - (xc : ℝ)) ^ 2 + (z.im - (yc : ℝ)) ^ 2 ≤ (ro : ℝ) ^ 2}

/-- The closed unit pixel cell centred at integer coordinates `(i, j)`. -/
def pixelCell (i j : ℤ) : Set ℂ :=
  {z | z.re ∈ Set.Icc ((i : ℝ) - 1 / 2) ((i : ℝ) + 1 / 2)
    ∧ z.im ∈ Set.Icc ((j : ℝ) - 1 / 2) ((j : ℝ) + 1 / 2)}

/-- Half-open pixel cell; these tile the plane disjointly and differ from
`pixelCell` by a null set. -/
def pixelCellHalfOpen (i j : ℤ) : Set ℂ :=
  {z | z.re ∈ Set.Ico ((i : ℝ) - 1 / 2) ((i : ℝ) + 1 / 2)
    ∧ z.im ∈ Set.Ico ((j : ℝ) - 1 / 2) ((j : ℝ) + 1 / 2)}

/-- Modelled from the spec: the "exact" overlap weight of pixel `(i, j)` is
the fractional geometric overlap of the aperture with the pixel cell (the
cell has unit area, so the fraction is the area of the intersection). -/
noncomputable def exactWeight (a : Aperture) (i j : ℤ) : ℝ :=
  (volume (aperSet a ∩ pixelCell i j)).toReal

/-- Modelled from the spec: the "center" overlap weight is 1 if the pixel
center lies inside the geometry, else 0. -/
def centerWeight (a : Aperture) (i j : ℤ) : ℚ :=
  if aperContains a i j then 1 else 0

theorem pixelCell_eq_preimage (i j : ℤ) :
    pixelCell i j = Set.preimage Complex.measurableEquivRealProd
      (Set.Icc ((i : ℝ) - 1 / 2) ((i : ℝ) + 1 / 2) ×ˢ
        Set.Icc ((j : ℝ) - 1 / 2) ((j : ℝ) + 1 / 2)) := by
  ext z
  simp only [pixelCell, Set.mem_setOf_eq, Set.mem_preimage,
    Complex.measurableEquivRealProd_apply, Set.mem_prod]

theorem volume_pixelCell (i j : ℤ) : volume (pixelCell i j) = 1 := by
  rw [pixelCell_eq_preimage,
    Complex.volume_preserving_equiv_real_prod.measure_preimage
      (measurableSet_Icc.prod measurableSet_Icc).nullMeasurableSet,
    Measure.volume_eq_prod, Measure.prod_prod, Real.volume_Icc, Real.volume_Icc]
  norm_num

theorem exactWeight_le_one (a : Aperture) (i j : ℤ) : exactWeight a i j ≤ 1 := by
  have h : volume (aperSet a ∩ pixelCell i j) ≤ 1 := by
    calc volume (aperSet a ∩ pixelCell i j) ≤ volume (pixelCell i j) :=
          measure_mono Set.inter_subset_right
    _ = 1 := volume_pixelCell i j
  calc exactWeight a i j ≤ (1 : ℝ≥0∞).toReal := ENNReal.toReal_mono (by simp) h
  _ = 1 := by simp

theorem centerPoint_mem_of_contains (a : Aperture) (i j : ℤ)
    (h : aperContains a i j = true) : (⟨(i : ℝ), (j : ℝ)⟩ : ℂ) ∈ aperSet a := by
  cases a with
  | circular xc yc r =>
    simp only [aperContains, decide_eq_true_eq] at h
    show ((i : ℝ) - (xc : ℝ)) ^ 2 + ((j : ℝ) - (yc : ℝ)) ^ 2 ≤ (r : ℝ) ^ 2
    exact_mod_cast h
  | annulus xc yc ri ro =>
    simp only [aperContains, Bool.and_eq_true, decide_eq_true_eq] at h
    refine ⟨?_, ?_⟩
    · show (ri : ℝ) ^ 2 ≤ ((i : ℝ) - (xc : ℝ)) ^ 2 + ((j : ℝ) - (yc : ℝ)) ^ 2
      exact_mod_cast h.1
    · show ((i : ℝ) - (xc : ℝ)) ^ 2 + ((j : ℝ) - (yc : ℝ)) ^ 2 ≤ (ro : ℝ) ^ 2
      exact_mod_cast h.2

theorem centerPoint_mem_pixelCell (i j : ℤ) :
    (⟨(i : ℝ), (j : ℝ)⟩ : ℂ) ∈ pixelCell i j := by
  refine ⟨Set.mem_Icc.mpr ⟨?_, ?_⟩, Set.mem_Icc.mpr ⟨?_, ?_⟩⟩ <;>
    simp only [] <;> linarith

/-- **C4.** Every mask weight lies in `[0, 1]`; a pixel cell disjoint from
the aperture geometry gets weight exactly 0 under both methods; the
"center" method is binary (each weight is exactly 0 or exactly 1); and the
"exact" weight is the fractional geometric overlap of the aperture with the
pixel cell (the normalized intersection area defining `exactWeight`). -/
theorem mask_weight_invariants (a : Aperture) (i j : ℤ) :
    (0 ≤ exactWeight a i j ∧ exactWeight a i j ≤ 1)
    ∧ (0 ≤ centerWeight a i j ∧ centerWeight a i j ≤ 1)
    ∧ (centerWeight a i j = 0 ∨ centerWeight a i j = 1)
    ∧ (Disjoint (aperSet a) (pixelCell i j) →
        exactWeight a i j = 0 ∧ centerWeight a i j = 0) := by
  refine ⟨⟨ENNReal.toReal_nonneg, exactWeight_le_one a i j⟩, ?_, ?_, ?_⟩
  · unfold centerWeight
    split <;> norm_num
  · unfold centerWeight
    split
    · right; rfl
    · left; rfl
  · intro hdisj
    constructor
    · rw [exactWeight, Set.disjoint_iff_inter_eq_empty.mp hdisj]
      simp
    · by_cases hc : aperContains a i j = true
      · exact absurd (centerPoint_mem_of_contains a i j hc)
          (Set.disjoint_left.mp hdisj |> fun h => fun hm =>
            h hm (centerPoint_mem_pixelCell i j))
      · simp [centerWeight, hc]

/-- Witness for `mask_weight_invariants`: the unit circle at the origin is
disjoint from the pixel cell at `(10, 10)`, whose weights are therefore 0. -/
theorem mask_weight_invariants_witness :
    Disjoint (aperSet (Aperture.circular 0 0 1)) (pixelCell 10 10)
    ∧ (exactWeight (Aperture.circular 0 0 1) 10 10 = 0
      ∧ centerWeight (Aperture.circular 0 0 1) 10 10 = 0) := by
  have hd : Disjoint (aperSet (Aperture.circular 0 0 1)) (pixelCell 10 10) := by
    rw [Set.disjoint_left]
    intro z hz hcell
    have hz' : (z.re - ((0 : ℚ) : ℝ)) ^ 2 + (z.im - ((0 : ℚ) : ℝ)) ^ 2
        ≤ ((1 : ℚ) : ℝ) ^ 2 := hz
    obtain ⟨hre, _⟩ := hcell
    have hre1 : ((10 : ℤ) : ℝ) - 1 / 2 ≤ z.re := (Set.mem_Icc.mp hre).1
    push_cast at hz' hre1
    nlinarith [sq_nonneg z.im]
  exact ⟨hd, (mask_weight_invariants (Aperture.circular 0 0 1) 10 10).2.2.2 hd⟩

/-! ## Uniform-image photometry: mask-area and analytic-area identities -/

theorem measurableSet_aperSet (a : Aperture) : MeasurableSet (aperSet a) := by
  cases a with
  | circular xc yc r =>
    have hm : Measurable fun z : ℂ =>
        (z.re - (xc : ℝ)) ^ 2 + (z.im - (yc : ℝ)) ^ 2 :=
      ((Complex.measurable_re.sub measurable_const).pow_const 2).add
        ((Complex.measurable_im.sub measurable_const).pow_const 2)
    exact measurableSet_le hm measurable_const
  | annulus xc yc ri ro =>
    have hm : Measurable fun z : ℂ =>
        (z.re - (xc : ℝ)) ^ 2 + (z.im - (yc : ℝ)) ^ 2 :=
      ((Complex.measurable_re.sub measurable_const).pow_const 2).add
        ((Complex.measurable_im.sub measurable_const).pow_const 2)
    exact (measurableSet_le measurable_const hm).inter
      (measurableSet_le hm measurable_const)

theorem pixelCellHalfOpen_eq_preimage (i j : ℤ) :
    pixelCellHalfOpen i j = Set.preimage Complex.measurableEquivRealProd
      (Set.Ico ((i : ℝ) - 1 / 2) ((i : ℝ) + 1 / 2) ×ˢ
        Set.Ico ((j : ℝ) - 1 / 2) ((j : ℝ) + 1 / 2)) := by
  ext z
  simp only [pixelCellHalfOpen, Set.mem_setOf_eq, Set.mem_preimage,
    Complex.measurableEquivRealProd_apply, Set.mem_prod]

theorem measurableSet_pixelCellHalfOpen (i j : ℤ) : MeasurableSet (pixelCellHalfOpen i j) := by
  rw [pixelCellHalfOpen_eq_preimage]
  exact Complex.measurableEquivRealProd.measurable
    (measurableSet_Ico.prod measurableSet_Ico)

theorem pixelCellHalfOpen_subset_pixelCell (i j : ℤ) : pixelCellHalfOpen i j ⊆ pixelCell i j := by
  rintro z ⟨h1, h2⟩
  exact ⟨⟨h1.1, le_of_lt h1.2⟩, ⟨h2.1, le_of_lt h2.2⟩⟩

theorem pixelCellHalfOpen_disjoint {p q : ℤ × ℤ} (hpq : p ≠ q) :
    Disjoint (pixelCellHalfOpen p.1 p.2) (pixelCellHalfOpen q.1 q.2) := by
  rw [Set.disjoint_left]
  rintro z ⟨hre, him⟩ ⟨hre', him'⟩
  apply hpq
  have h1 : p.1 = q.1 := by
    by_contra hne
    have hor : p.1 + 1 ≤ q.1 ∨ q.1 + 1 ≤ p.1 := by omega
    rcases hor with h | h
    · have hc : (p.1 : ℝ) + 1 ≤ (q.1 : ℝ) := by exact_mod_cast h
      have ha := hre.2
      have hb := hre'.1
      linarith
    · have hc : (q.1 : ℝ) + 1 ≤ (p.1 : ℝ) := by exact_mod_cast h
      have ha := hre.1
      have hb := hre'.2
      linarith
  have h2 : p.2 = q.2 := by
    by_contra hne
    have hor : p.2 + 1 ≤ q.2 ∨ q.2 + 1 ≤ p.2 := by omega
    rcases hor with h | h
    · have hc : (p.2 : ℝ) + 1 ≤ (q.2 : ℝ) := by exact_mod_cast h
      have ha := him.2
      have hb := him'.1
      linarith
    · have hc : (q.2 : ℝ) + 1 ≤ (p.2 : ℝ) := by exact_mod_cast h
      have ha := him.1
      have hb := him'.2
      linarith
  exact Prod.ext h1 h2

theorem volume_re_line (c : ℝ) : volume {z : ℂ | z.re = c} = 0 := by
  have hpre : {z : ℂ | z.re = c}
      = Set.preimage Complex.measurableEquivRealProd ({c} ×ˢ (Set.univ : Set ℝ)) := by
    ext z
    simp [Complex.measurableEquivRealProd_apply, eq_comm]
  rw [hpre, Complex.volume_preserving_equiv_real_prod.measure_preimage
    ((measurableSet_singleton c).prod MeasurableSet.univ).nullMeasurableSet,
    Measure.volume_eq_prod, Measure.prod_prod]
  simp

theorem volume_im_line (c : ℝ) : volume {z : ℂ | z.im = c} = 0 := by
  have hpre : {z : ℂ | z.im = c}
      = Set.preimage Complex.measurableEquivRealProd ((Set.univ : Set ℝ) ×ˢ {c}) := by
    ext z
    simp [Complex.measurableEquivRealProd_apply, eq_comm]
  rw [hpre, Complex.volume_preserving_equiv_real_prod.measure_preimage
    (MeasurableSet.univ.prod (measurableSet_singleton c)).nullMeasurableSet,
    Measure.volume_eq_prod, Measure.prod_prod]
  simp

theorem volume_inter_cell_Icc_Ico (S : Set ℂ) (i j : ℤ) :
    volume (S ∩ pixelCell i j) = volume (S ∩ pixelCellHalfOpen i j) := by
  apply le_antisymm
  · have hsub : S ∩ pixelCell i j ⊆
        (S ∩ pixelCellHalfOpen i j) ∪
          ({z : ℂ | z.re = (i : ℝ) + 1 / 2} ∪ {z : ℂ | z.im = (j : ℝ) + 1 / 2}) := by
      rintro z ⟨hzS, hre, him⟩
      by_cases h1 : z.re < (i : ℝ) + 1 / 2
      · by_cases h2 : z.im < (j : ℝ) + 1 / 2
        · exact Or.inl ⟨hzS, ⟨hre.1, h1⟩, ⟨him.1, h2⟩⟩
        · exact Or.inr (Or.inr (le_antisymm him.2 (not_lt.mp h2)))
      · exact Or.inr (Or.inl (le_antisymm hre.2 (not_lt.mp h1)))
    calc volume (S ∩ pixelCell i j)
        ≤ volume ((S ∩ pixelCellHalfOpen i j) ∪
            ({z : ℂ | z.re = (i : ℝ) + 1 / 2} ∪ {z : ℂ | z.im = (j : ℝ) + 1 / 2})) :=
          measure_mono hsub
      _ ≤ volume (S ∩ pixelCellHalfOpen i j) +
            volume ({z : ℂ | z.re = (i : ℝ) + 1 / 2} ∪
              {z : ℂ | z.im = (j : ℝ) + 1 / 2}) := measure_union_le _ _
      _ = volume (S ∩ pixelCellHalfOpen i j) := by
          rw [measure_union_null (volume_re_line _) (volume_im_line _), add_zero]
  · exact measure_mono
      (Set.inter_subset_inter_right S (pixelCellHalfOpen_subset_pixelCell i j))

theorem sum_exactWeight_eq_volume (a : Aperture) (P : Finset (ℤ × ℤ))
    (hcov : aperSet a ⊆ ⋃ p ∈ P, pixelCellHalfOpen p.1 p.2) :
    ∑ p ∈ P, exactWeight a p.1 p.2 = (volume (aperSet a)).toReal := by
  have hfin : ∀ p ∈ P, volume (aperSet a ∩ pixelCellHalfOpen p.1 p.2) ≠ ⊤ := by
    intro p _
    have hle : volume (aperSet a ∩ pixelCellHalfOpen p.1 p.2) ≤ 1 := by
      calc volume (aperSet a ∩ pixelCellHalfOpen p.1 p.2)
          ≤ volume (pixelCell p.1 p.2) := measure_mono
            (le_trans Set.inter_subset_right (pixelCellHalfOpen_subset_pixelCell p.1 p.2))
        _ = 1 := volume_pixelCell p.1 p.2
    exact ne_top_of_le_ne_top ENNReal.one_ne_top hle
  have hdisj : (P : Set (ℤ × ℤ)).PairwiseDisjoint
      (fun p : ℤ × ℤ => aperSet a ∩ pixelCellHalfOpen p.1 p.2) := by
    intro p _ q _ hpq
    exact (pixelCellHalfOpen_disjoint hpq).mono Set.inter_subset_right Set.inter_subset_right
  have hmeas : ∀ p ∈ P, MeasurableSet (aperSet a ∩ pixelCellHalfOpen p.1 p.2) := fun p _ =>
    (measurableSet_aperSet a).inter (measurableSet_pixelCellHalfOpen p.1 p.2)
  have hU : (⋃ p ∈ P, aperSet a ∩ pixelCellHalfOpen p.1 p.2) = aperSet a := by
    rw [← Set.inter_iUnion₂]
    exact Set.inter_eq_left.mpr hcov
  calc ∑ p ∈ P, exactWeight a p.1 p.2
      = ∑ p ∈ P, (volume (aperSet a ∩ pixelCellHalfOpen p.1 p.2)).toReal :=
        Finset.sum_congr rfl (fun p _ => by
          rw [exactWeight, volume_inter_cell_Icc_Ico])
    _ = (∑ p ∈ P, volume (aperSet a ∩ pixelCellHalfOpen p.1 p.2)).toReal :=
        (ENNReal.toReal_sum hfin).symm
    _ = (volume (⋃ p ∈ P, aperSet a ∩ pixelCellHalfOpen p.1 p.2)).toReal := by
        rw [measure_biUnion_finset hdisj hmeas]
    _ = (volume (aperSet a)).toReal := by rw [hU]

/-- The pixel grid of an `H × W` image, as integer pixel centers. -/
def gridP (H W : ℕ) : Finset (ℤ × ℤ) :=
  Finset.Icc 0 ((H : ℤ) - 1) ×ˢ Finset.Icc 0 ((W : ℤ) - 1)

theorem subset_grid_cells (S : Set ℂ) (H W : ℕ)
    (hS : ∀ z ∈ S, -(1 / 2 : ℝ) ≤ z.re ∧ z.re < (H : ℝ) - 1 / 2
        ∧ -(1 / 2 : ℝ) ≤ z.im ∧ z.im < (W : ℝ) - 1 / 2) :
    S ⊆ ⋃ p ∈ gridP H W, pixelCellHalfOpen p.1 p.2 := by
  intro z hz
  obtain ⟨h1, h2, h3, h4⟩ := hS z hz
  have hre1 : (⌊z.re + 1 / 2⌋ : ℝ) ≤ z.re + 1 / 2 := Int.floor_le _
  have hre2 : z.re + 1 / 2 < ⌊z.re + 1 / 2⌋ + 1 := Int.lt_floor_add_one _
  have him1 : (⌊z.im + 1 / 2⌋ : ℝ) ≤ z.im + 1 / 2 := Int.floor_le _
  have him2 : z.im + 1 / 2 < ⌊z.im + 1 / 2⌋ + 1 := Int.lt_floor_add_one _
  have hmem : (⌊z.re + 1 / 2⌋, ⌊z.im + 1 / 2⌋) ∈ gridP H W := by
    rw [gridP, Finset.mem_product]
    constructor
    · rw [Finset.mem_Icc]
      refine ⟨Int.floor_nonneg.mpr (by linarith), ?_⟩
      have hlt : ⌊z.re + 1 / 2⌋ < (H : ℤ) := Int.floor_lt.mpr (by push_cast; linarith)
      omega
    · rw [Finset.mem_Icc]
      refine ⟨Int.floor_nonneg.mpr (by linarith), ?_⟩
      have hlt : ⌊z.im + 1 / 2⌋ < (W : ℤ) := Int.floor_lt.mpr (by push_cast; linarith)
      omega
  exact Set.mem_biUnion hmem
    ⟨Set.mem_Ico.mpr ⟨by linarith, by linarith⟩,
      Set.mem_Ico.mpr ⟨by linarith, by linarith⟩⟩

theorem aperSet_circular_eq_closedBall (xc yc r : ℚ) (hr : (0 : ℝ) ≤ (r : ℝ)) :
    aperSet (Aperture.circular xc yc r)
      = Metric.closedBall (⟨(xc : ℝ), (yc : ℝ)⟩ : ℂ) (r : ℝ) := by
  ext z
  rw [Metric.mem_closedBall, Complex.dist_eq_re_im, Real.sqrt_le_left hr]
  exact Iff.rfl

theorem volume_aperSet_circular_toReal (xc yc r : ℚ) (hr : (0 : ℝ) ≤ (r : ℝ)) :
    (volume (aperSet (Aperture.circular xc yc r))).toReal
      = (r : ℝ) ^ 2 * Real.pi := by
  rw [aperSet_circular_eq_closedBall xc yc r hr, Complex.volume_closedBall,
    ENNReal.toReal_mul, ENNReal.toReal_pow, ENNReal.toReal_ofReal hr,
    ENNReal.coe_toReal, NNReal.coe_real_pi]

theorem aperSet_annulus_eq (xc yc ri ro : ℚ)
    (hri : (0 : ℝ) ≤ (ri : ℝ)) (hro : (0 : ℝ) ≤ (ro : ℝ)) :
    aperSet (Aperture.annulus xc yc ri ro)
      = Metric.closedBall (⟨(xc : ℝ), (yc : ℝ)⟩ : ℂ) (ro : ℝ)
        \ Metric.ball (⟨(xc : ℝ), (yc : ℝ)⟩ : ℂ) (ri : ℝ) := by
  ext z
  rw [Set.mem_diff, Metric.mem_closedBall, Metric.mem_ball,
    Complex.dist_eq_re_im, not_lt, Real.sqrt_le_left hro,
    Real.le_sqrt hri (by positivity)]
  constructor
  · rintro ⟨hA, hB⟩
    exact ⟨hB, hA⟩
  · rintro ⟨hA, hB⟩
    exact ⟨hB, hA⟩

theorem volume_aperSet_annulus_toReal (xc yc ri ro : ℚ)
    (hri : (0 : ℝ) ≤ (ri : ℝ)) (hio : (ri : ℝ) ≤ (ro : ℝ)) :
    (volume (aperSet (Aperture.annulus xc yc ri ro))).toReal
      = ((ro : ℝ) ^ 2 - (ri : ℝ) ^ 2) * Real.pi := by
  have hro : (0 : ℝ) ≤ (ro : ℝ) := le_trans hri hio
  have hfin : volume (Metric.ball (⟨(xc : ℝ), (yc : ℝ)⟩ : ℂ) (ri : ℝ)) ≠ ⊤ := by
    rw [Complex.volume_ball]
    exact ENNReal.mul_ne_top (ENNReal.pow_ne_top ENNReal.ofReal_ne_top)
      ENNReal.coe_ne_top
  rw [aperSet_annulus_eq xc yc ri ro hri hro,
    measure_diff
      (Metric.ball_subset_closedBall.trans (Metric.closedBall_subset_closedBall hio))
      measurableSet_ball.nullMeasurableSet hfin,
    Complex.volume_closedBall, Complex.volume_ball]
  have hle : ENNReal.ofReal (ri : ℝ) ^ 2 * (NNReal.pi : ℝ≥0∞)
      ≤ ENNReal.ofReal (ro : ℝ) ^ 2 * (NNReal.pi : ℝ≥0∞) :=
    mul_le_mul_right'
      (pow_le_pow_left₀ (zero_le _) (ENNReal.ofReal_le_ofReal hio) 2) _
  rw [ENNReal.toReal_sub_of_le hle
    (ENNReal.mul_ne_top (ENNReal.pow_ne_top ENNReal.ofReal_ne_top) ENNReal.coe_ne_top),
    ENNReal.toReal_mul, ENNReal.toReal_mul, ENNReal.toReal_pow, ENNReal.toReal_pow,
    ENNReal.toReal_ofReal hri, ENNReal.toReal_ofReal hro,
    ENNReal.coe_toReal, NNReal.coe_real_pi]
  ring

/-- Exact-method aperture photometry over a finite pixel grid. -/
noncomputable def aperture_sum_exact (a : Aperture) (P : Finset (ℤ × ℤ))
    (img : ℤ × ℤ → ℝ) : ℝ :=
  ∑ p ∈ P, exactWeight a p.1 p.2 * img p

theorem aperture_sum_exact_const (a : Aperture) (P : Finset (ℤ × ℤ)) (v : ℝ)
    (hcov : aperSet a ⊆ ⋃ p ∈ P, pixelCellHalfOpen p.1 p.2) :
    aperture_sum_exact a P (fun _ => v) = (volume (aperSet a)).toReal * v := by
  rw [aperture_sum_exact, ← Finset.sum_mul, sum_exactWeight_eq_volume a P hcov]

theorem disc_cover :
    aperSet (Aperture.circular 100 100 5)
      ⊆ ⋃ p ∈ gridP 200 200, pixelCellHalfOpen p.1 p.2 := by
  apply subset_grid_cells
  intro z hz
  have hz' : (z.re - ((100 : ℚ) : ℝ)) ^ 2 + (z.im - ((100 : ℚ) : ℝ)) ^ 2
      ≤ ((5 : ℚ) : ℝ) ^ 2 := hz
  push_cast at hz'
  push_cast
  refine ⟨by nlinarith [sq_nonneg (z.im - 100)], by nlinarith [sq_nonneg (z.im - 100)],
    by nlinarith [sq_nonneg (z.re - 100)], by nlinarith [sq_nonneg (z.re - 100)]⟩

theorem annulus_cover :
    aperSet (Aperture.annulus 100 100 10 15)
      ⊆ ⋃ p ∈ gridP 200 200, pixelCellHalfOpen p.1 p.2 := by
  apply subset_grid_cells
  intro z hz
  have hz' : (z.re - ((100 : ℚ) : ℝ)) ^ 2 + (z.im - ((100 : ℚ) : ℝ)) ^ 2
      ≤ ((15 : ℚ) : ℝ) ^ 2 := hz.2
  push_cast at hz'
  push_cast
  refine ⟨by nlinarith [sq_nonneg (z.im - 100)], by nlinarith [sq_nonneg (z.im - 100)],
    by nlinarith [sq_nonneg (z.re - 100)], by nlinarith [sq_nonneg (z.re - 100)]⟩

theorem aperture_sum_const_eq_area (m : List ((ℤ × ℤ) × ℚ)) (v : ℚ)
    (shape : ℕ × ℕ) (bad : ℤ × ℤ → Bool) :
    aperture_sum m (fun _ => v) shape bad = v * aperture_area m shape bad := by
  rw [aperture_sum, aperture_area]
  induction m with
  | nil => simp
  | cons pw t ih =>
    simp only [List.map_cons, List.sum_cons]
    rw [ih]
    ring

/-- **C6.** On a uniform image of constant value `v` the aperture sum equals
`v` times the aperture area for any rasterized mask (hence for both the
"center" and "exact" methods); on the spec's 200×200 constant-5 scenario the
exact-method sum for the `r = 5` circle at `(100, 100)` is exactly
`5 · (25π) = 125π ≈ 392.7` (within `1/100`), and the `r_in = 10, r_out = 15`
annulus sum divided by its analytic area recovers exactly 5. -/
theorem uniform_image_photometry :
    (∀ (m : List ((ℤ × ℤ) × ℚ)) (v : ℚ) (shape : ℕ × ℕ) (bad : ℤ × ℤ → Bool),
        aperture_sum m (fun _ => v) shape bad = v * aperture_area m shape bad)
    ∧ aperture_sum_exact (Aperture.circular 100 100 5) (gridP 200 200)
        (fun _ => (5 : ℝ)) = 5 * (25 * Real.pi)
    ∧ |5 * (25 * Real.pi) - 392.7| < 1 / 100
    ∧ aperture_sum_exact (Aperture.annulus 100 100 10 15) (gridP 200 200)
          (fun _ => (5 : ℝ))
        / (volume (aperSet (Aperture.annulus 100 100 10 15))).toReal = 5 := by
  have hdiscvol : (volume (aperSet (Aperture.circular 100 100 5))).toReal
      = 25 * Real.pi := by
    rw [volume_aperSet_circular_toReal 100 100 5 (by norm_num)]
    norm_num
  have hannvol : (volume (aperSet (Aperture.annulus 100 100 10 15))).toReal
      = 125 * Real.pi := by
    rw [volume_aperSet_annulus_toReal 100 100 10 15 (by norm_num) (by norm_num)]
    norm_num
  refine ⟨aperture_sum_const_eq_area, ?_, ?_, ?_⟩
  · rw [aperture_sum_exact_const _ _ _ disc_cover, hdiscvol]
    ring
  · have h1 := Real.pi_gt_d6
    have h2 := Real.pi_lt_d6
    rw [abs_lt]
    constructor <;> nlinarith
  · rw [aperture_sum_exact_const _ _ _ annulus_cover, hannvol]
    have hne : 125 * Real.pi ≠ 0 := by positivity
    field_simp
